import Mathlib

/-!
# Verification of the okteto-sync reconciliation script

A shallow embedding of `src/entrypoint.py` (the okteto-sync tool), which
reconciles GitHub deployment records against Okteto preview environments and
deletes orphaned entries on both sides.  Pure parts of the Python program are
translated into executable Lean functions; the imperative `run` procedure is
modelled as explicit state passing producing a trace of observable actions
(log lines and outbound delete calls).  External I/O (HTTP transport, the
`okteto` subprocess) is abstracted as function parameters giving the outcome
of each call, matching the interface contract the program relies on.
-/

deriving instance DecidableEq for Except

namespace OktetoSync

/-! ## Generic list helpers (used to model in-place mutation of list items) -/

/-- Replace the element at index `i` by `f` of it; out-of-range indices leave
the list unchanged.  Models in-place mutation of one object in a Python list. -/
def modifyIdx (f : α → α) : List α → Nat → List α
  | [], _ => []
  | a :: as, 0 => f a :: as
  | a :: as, n + 1 => a :: modifyIdx f as n

theorem modifyIdx_length (f : α → α) (l : List α) (i : Nat) :
    (modifyIdx f l i).length = l.length := by
  induction l generalizing i with
  | nil => rfl
  | cons a as ih =>
    cases i with
    | zero => rfl
    | succ n => simpa [modifyIdx] using ih n

theorem get?_modifyIdx_self (f : α → α) (l : List α) (i : Nat) :
    (modifyIdx f l i).get? i = (l.get? i).map f := by
  induction l generalizing i with
  | nil => cases i <;> rfl
  | cons a as ih =>
    cases i with
    | zero => rfl
    | succ n => simpa [modifyIdx] using ih n

theorem get?_modifyIdx_ne (f : α → α) (l : List α) (i j : Nat) (h : j ≠ i) :
    (modifyIdx f l i).get? j = l.get? j := by
  induction l generalizing i j with
  | nil => cases i <;> rfl
  | cons a as ih =>
    cases i with
    | zero =>
      cases j with
      | zero => exact absurd rfl h
      | succ m => rfl
    | succ n =>
      cases j with
      | zero => rfl
      | succ m => simpa [modifyIdx] using ih n m (fun hc => h (by omega))

theorem map_modifyIdx (f : α → α) (g : α → β) (l : List α) (i : Nat)
    (hf : ∀ a, g (f a) = g a) : (modifyIdx f l i).map g = l.map g := by
  induction l generalizing i with
  | nil => rfl
  | cons a as ih =>
    cases i with
    | zero => simp [modifyIdx, hf]
    | succ n => simpa [modifyIdx] using ih n

/-! ## Python string primitives

`strContains s pat` models the Python expression `pat in s` (substring
containment); `pyStripBy` models `str.strip`, which removes characters
satisfying a predicate from *both ends* of the string (for `str.strip(arg)`
the predicate is membership in the character set of `arg` — not prefix
removal). -/

/-- `listIsPrefix pat l` is true when `pat` is a prefix of `l`. -/
def listIsPrefix : List Char → List Char → Bool
  | [], _ => true
  | _ :: _, [] => false
  | a :: as, b :: bs => a == b && listIsPrefix as bs

/-- `listIsInfix pat l` is true when `pat` occurs contiguously inside `l`. -/
def listIsInfix (pat : List Char) : List Char → Bool
  | [] => listIsPrefix pat []
  | l@(_ :: rest) => listIsPrefix pat l || listIsInfix pat rest

/-- Python `pat in s` for strings: substring containment. -/
def strContains (s pat : String) : Bool :=
  listIsInfix pat.data s.data

/-- Python `s.strip()` family: drop characters satisfying `p` from both ends. -/
def pyStripBy (p : Char → Bool) (s : String) : String :=
  ⟨((s.data.dropWhile p).reverse.dropWhile p).reverse⟩

/-- Python `s.strip(chars)`: strip characters belonging to `chars` from both
ends of `s` (a character-set operation, not prefix/suffix removal). -/
def pyStripChars (chars : String) (s : String) : String :=
  pyStripBy (fun c => chars.data.contains c) s

/-- Modelled from the spec: "target branch (string, normalized by stripping a
`refs/heads/` prefix if present)".  Removes a leading `refs/heads/` when the
ref starts with it and leaves the ref unchanged otherwise. -/
def specNormalizeRef (s : String) : String :=
  if ("refs/heads/".data.isPrefixOf s.data) then ⟨s.data.drop 11⟩ else s

/-! ## Data model

`GitHubDeployment` and `OktetoDeployment` mirror the two dataclasses of
`entrypoint.py`.  The mutable back-links (`GitHubDeployment.okteto`,
`OktetoDeployment.github`) are modelled as optional indices into the other
catalog, which is the faithful rendering of Python object references into a
list-based state.  Creation timestamps are modelled as integers: `run` only
ever compares them (`sorted(..., key=attrgetter("created"))`), so the
ISO-8601 parse in `__post_init__` is abstracted to an already-parsed total
order. -/

structure GitHubDeployment where
  deploy_id : Int
  name : String
  branch : String
  task : String
  created : Int
  url : String
  okteto : Option Nat
deriving Repr, DecidableEq

structure OktetoDeployment where
  name : String
  scope : String
  sleeping : Bool
  github : Option Nat
deriving Repr, DecidableEq

/-- A raw GitHub deployment JSON record, with the fields
`get_okteto_deployments` reads (`id`, `environment`, `ref`, `task`,
`created_at`). -/
structure RawDeployment where
  id : Int
  environment : String
  ref : String
  task : String
  created_at : Int
deriving Repr, DecidableEq

/-- `GitHubDeployment.__init__` followed by `__post_init__`: the branch is
`self.branch.strip("refs/heads/")` (Python character-set strip), `url` starts
empty and the Okteto back-link starts as `None`. -/
def mkGitHubDeployment (raw : RawDeployment) : GitHubDeployment :=
  { deploy_id := raw.id
    name := raw.environment
    branch := pyStripChars "refs/heads/" raw.ref
    task := raw.task
    created := raw.created_at
    url := ""
    okteto := none }

/-- `GitHubDeployment.is_okteto_deployment`, with the statuses API call
abstracted as the list of `environment_url` strings of the first page: the
first status URL containing the Okteto domain, if any (on success the method
stores that URL into `self.url` and returns `True`). -/
def is_okteto_deployment (domain : String) (statusUrls : List String) : Option String :=
  statusUrls.find? (fun u => strContains u domain)

/-- One step of `GitHubDeployment.get_okteto_deployments`: build the record
and yield it only when `task == "deploy"`, the name is not ignored, and
`is_okteto_deployment()` succeeds (in which case `url` has been set). -/
def processRawDeployment (domain : String) (ignore : List String)
    (statuses : Int → List String) (raw : RawDeployment) : Option GitHubDeployment :=
  let obj := mkGitHubDeployment raw
  if obj.task = "deploy" ∧ ¬ ignore.contains obj.name then
    match is_okteto_deployment domain (statuses raw.id) with
    | some u => some { obj with url := u }
    | none => none
  else none

/-- `GitHubDeployment.get_okteto_deployments`: the deployment catalog. -/
def get_okteto_deployments (domain : String) (ignore : List String)
    (statuses : Int → List String) (raws : List RawDeployment) : List GitHubDeployment :=
  raws.filterMap (processRawDeployment domain ignore statuses)

/-! ## Okteto preview-environment listing parser (`OktetoDeployment.get_all`) -/

/-- Split a character list at every character satisfying `p` (Python
`str.split(sep)` semantics for a one-character separator: empty pieces are
kept, and the empty string yields one empty piece). -/
def splitCharsBy (p : Char → Bool) : List Char → List (List Char)
  | [] => [[]]
  | c :: rest =>
    if p c then [] :: splitCharsBy p rest
    else
      match splitCharsBy p rest with
      | t :: ts => (c :: t) :: ts
      | [] => [[c]]

/-- Python `str.lower()` (ASCII case folding, as used by the parser). -/
def strToLower (s : String) : String :=
  ⟨s.data.map Char.toLower⟩

/-- Python `filter(None, row.split(" "))`: split a row on single spaces and
drop empty tokens. -/
def splitTokens (row : String) : List String :=
  ((splitCharsBy (fun c => c = ' ') row.data).map (fun cs => String.mk cs)).filter
    (fun t => t ≠ "")

/-- Python `dict(zip(headings, cleaned))[key]`: association lookup where a
later duplicate key overwrites an earlier one. -/
def dictLookup (key : String) (pairs : List (String × String)) : Option String :=
  (pairs.reverse.find? (fun p => p.1 = key)).map (fun p => p.2)

/-- `OktetoDeployment.__init__` via `cls(**dict(zip(headings, cleaned)))`:
requires the keys `name`, `scope` and `sleeping` to be present (a missing key
raises `TypeError` in Python, modelled as `none`); extra keys are swallowed
by `**_`; the record is sleeping exactly when the lowercased token is one of
`"1"`, `"on"`, `"true"`. -/
def mkOkteto (headings tokens : List String) : Option OktetoDeployment :=
  let d := headings.zip tokens
  match dictLookup "name" d, dictLookup "scope" d, dictLookup "sleeping" d with
  | some n, some s, some sl =>
      some { name := n, scope := s,
             sleeping := ["1", "on", "true"].contains (strToLower sl), github := none }
  | _, _, _ => none

/-- The row loop of `OktetoDeployment.get_all`: the first state component is
the `headings` variable (`none` before a header row has been seen).  A header
row is one containing both `"Name"` and `"Scope"`; rows seen before it are
skipped; rows after it are tokenized and zipped with the headings; a row that
fails to produce the required constructor arguments raises (`Except.error`).
The `hs.isEmpty` guard mirrors Python's `elif headings:` truthiness test. -/
def oktetoGetAllGo : Option (List String) → List String → Except Unit (List OktetoDeployment)
  | _, [] => .ok []
  | none, row :: rest =>
    if strContains row "Name" && strContains row "Scope" then
      oktetoGetAllGo (some ((splitTokens row).map strToLower)) rest
    else
      oktetoGetAllGo none rest
  | some hs, row :: rest =>
    if hs.isEmpty then oktetoGetAllGo (some hs) rest
    else
      match mkOkteto hs (splitTokens row) with
      | some env => (oktetoGetAllGo (some hs) rest).map (fun envs => env :: envs)
      | none => .error ()

/-- `OktetoDeployment.get_all`, with the `okteto preview list` stdout given
as a string: strip surrounding whitespace, split into lines, run the row
loop. -/
def okteto_get_all (stdout : String) : Except Unit (List OktetoDeployment) :=
  oktetoGetAllGo none
    ((splitCharsBy (fun c => c = '\n') (pyStripBy Char.isWhitespace stdout).data).map
      (fun cs => String.mk cs))

/-- Modelled from the spec: "first non-empty line is a header row whose
whitespace-delimited, lowercased tokens become field names; each subsequent
line is whitespace-split and zipped positionally against those field names to
build one record.  Rows before a header is found are skipped."  Used only to
compare the spec's description of the parser with the implemented one. -/
def specOktetoGetAllGo : Option (List String) → List String → Except Unit (List OktetoDeployment)
  | _, [] => .ok []
  | none, row :: rest =>
    if row ≠ "" then
      specOktetoGetAllGo
        (some ((((splitCharsBy Char.isWhitespace row.data).map (fun cs => String.mk cs)).filter
          (fun t => t ≠ "")).map strToLower)) rest
    else
      specOktetoGetAllGo none rest
  | some hs, row :: rest =>
    match mkOkteto hs (((splitCharsBy Char.isWhitespace row.data).map
        (fun cs => String.mk cs)).filter (fun t => t ≠ "")) with
    | some env => (specOktetoGetAllGo (some hs) rest).map (fun envs => env :: envs)
    | none => .error ()

/-! ## Matcher (`connect_deployments`)

The two catalogs form the mutable state; `connect_deployments` walks the
Okteto list and, for each environment, scans the GitHub list for the first
deployment whose `url` contains the environment's name, then sets both
back-links.  Scanning only reads `url`, which the matcher never changes, so
the scan is modelled over the (stable) list of URLs. -/

structure Catalogs where
  github : List GitHubDeployment
  okteto : List OktetoDeployment
deriving Repr, DecidableEq

/-- The URLs the matcher scans (it only ever reads `url`, which it never
modifies). -/
def ghUrls (c : Catalogs) : List String :=
  c.github.map (fun d => d.url)

/-- Index of the first URL in `urls` containing `name` as a substring
(the inner `for github_deployment in github: if okteto_deployment.name in
github_deployment.url: ... break` scan). -/
def firstMatchIdx (name : String) : List String → Option Nat
  | [] => none
  | url :: rest =>
    if strContains url name then some 0
    else (firstMatchIdx name rest).map (fun i => i + 1)

/-- Set the Okteto back-link of the GitHub deployment at index `i`. -/
def setGhLink (i : Nat) (j : Option Nat) (gh : List GitHubDeployment) : List GitHubDeployment :=
  modifyIdx (fun d => { d with okteto := j }) gh i

/-- Set the GitHub back-link of the Okteto environment at index `j`. -/
def setOkLink (j : Nat) (i : Option Nat) (ok : List OktetoDeployment) : List OktetoDeployment :=
  modifyIdx (fun e => { e with github := i }) ok j

/-- One iteration of the outer loop of `connect_deployments`, processing the
environment at index `j`. -/
def connectStep (c : Catalogs) (j : Nat) : Catalogs :=
  match c.okteto.get? j with
  | none => c
  | some env =>
    match firstMatchIdx env.name (ghUrls c) with
    | none => c
    | some i => { github := setGhLink i (some j) c.github
                  okteto := setOkLink j (some i) c.okteto }

/-- `connect_deployments`: process every environment in catalog order. -/
def connect_deployments (c : Catalogs) : Catalogs :=
  (List.range c.okteto.length).foldl connectStep c

/-- Freshly fetched catalogs: every back-link is still `None` (the dataclass
default set at construction time). -/
def Clean (c : Catalogs) : Prop :=
  (∀ d ∈ c.github, d.okteto = none) ∧ (∀ e ∈ c.okteto, e.github = none)

/-! ## Staleness classifier (the two loops of `run`)

The Python loops append records to `remove_list_github` / `remove_list_okteto`
while walking the catalogs in order; record identity is index identity, so the
lists are modelled as index lists built in the same order. -/

/-- The first classification loop's test on the deployment at index `i`:
queued when its Okteto back-link is `None`, or (elif) its branch is not a
live branch. -/
def removeGhPred (branches : List String) (c : Catalogs) (i : Nat) : Bool :=
  match c.github.get? i with
  | some d => d.okteto.isNone || !(branches.contains d.branch)
  | none => false

/-- `remove_list_github` after the first classification loop. -/
def remove_list_github (branches : List String) (c : Catalogs) : List Nat :=
  (List.range c.github.length).filter (removeGhPred branches c)

/-- The cascade of the first loop: when the deployment at index `i` has a
linked environment and a missing branch, that environment is queued too. -/
def cascadeEnv (branches : List String) (c : Catalogs) (i : Nat) : Option Nat :=
  match c.github.get? i with
  | some d =>
    match d.okteto with
    | some j => if branches.contains d.branch then none else some j
    | none => none
  | none => none

/-- The part of `remove_list_okteto` appended during the first loop. -/
def remove_list_okteto_cascade (branches : List String) (c : Catalogs) : List Nat :=
  (List.range c.github.length).filterMap (cascadeEnv branches c)

/-- The second classification loop: environments whose GitHub back-link is
`None`. -/
def remove_list_okteto_missing (c : Catalogs) : List Nat :=
  (List.range c.okteto.length).filter (fun j =>
    match c.okteto.get? j with
    | some e => e.github.isNone
    | none => false)

/-- The final `remove_list_okteto`: cascade entries (first loop) followed by
missing-deployment entries (second loop). -/
def environments_to_delete (branches : List String) (c : Catalogs) : List Nat :=
  remove_list_okteto_cascade branches c ++ remove_list_okteto_missing c

/-! ## Deletion scheduler

`sorted(remove_list_github, key=attrgetter("created"))` is Python's stable
ascending sort by key; it is modelled by a key-based insertion sort, whose
output is characterised below as the unique sorted stable permutation. -/

/-- Creation timestamp of the deployment at index `i` (the sort key). -/
def ghKey (c : Catalogs) (i : Nat) : Int :=
  match c.github.get? i with
  | some d => d.created
  | none => 0

/-- Insert `x` before the first element with a key not smaller than `x`'s. -/
def orderedInsertKey (k : Nat → Int) (x : Nat) : List Nat → List Nat
  | [] => [x]
  | y :: ys => if k x ≤ k y then x :: y :: ys else y :: orderedInsertKey k x ys

/-- Stable ascending sort by key (models Python `sorted(..., key=...)`). -/
def insertionSortKey (k : Nat → Int) : List Nat → List Nat
  | [] => []
  | x :: xs => orderedInsertKey k x (insertionSortKey k xs)

/-! ## The deletion phases of `run`, as an action trace

`Action` records everything `run` makes observable during the deletion
phases: the `"Deleting: ..."` log lines and the outbound delete calls.  The
outcome of each external call is a parameter (`ghStatus` gives the HTTP
status of `DELETE /deployments/{id}`, `okExit` the exit code of
`okteto preview destroy` for the environment at a given index). -/

inductive Action where
  | logDeleteGithub (name : String) (id : Int)
  | callDeleteGithub (id : Int)
  | logDeleteOkteto (name : String)
  | callDestroyOkteto (name : String)
deriving Repr, DecidableEq

/-- `GitHubDeployment.delete`: issue the DELETE call and report success as
`status == 204`. -/
def github_delete (status : Nat) : Bool :=
  status == 204

/-- `OktetoDeployment.delete`: run `okteto preview destroy` with
`check=True`; a non-zero exit raises (error, record untouched), a clean exit
is followed by `self.sleeping = True`. -/
def okteto_delete (exitCode : Nat) (e : OktetoDeployment) : Except Unit OktetoDeployment :=
  if exitCode = 0 then .ok { e with sleeping := true } else .error ()

/-- The GitHub deletion loop of `run`: log each queued deployment and, unless
dry-run, call `deployment.delete()`; the returned success flag is discarded,
so the loop always continues. -/
def deleteGithubPhase (dry : Bool) (ghs : List GitHubDeployment) (status : Int → Nat) :
    List Nat → List Action
  | [] => []
  | i :: rest =>
    match ghs.get? i with
    | none => deleteGithubPhase dry ghs status rest
    | some d =>
      Action.logDeleteGithub d.name d.deploy_id ::
        ((if dry then [] else
            let _ := github_delete (status d.deploy_id)
            [Action.callDeleteGithub d.deploy_id]) ++ deleteGithubPhase dry ghs status rest)

/-- The Okteto deletion loop of `run`: log each queued environment and,
unless dry-run, call `okteto_env.delete()`.  A failing destroy raises out of
`run`: the remaining queue is abandoned, the catalog keeps its current state,
and the final flag is `false` (abnormal termination). -/
def deleteOktetoPhase (dry : Bool) (exit : Nat → Nat) (cat : List OktetoDeployment) :
    List Nat → List Action × List OktetoDeployment × Bool
  | [] => ([], cat, true)
  | j :: rest =>
    match cat.get? j with
    | none => deleteOktetoPhase dry exit cat rest
    | some e =>
      if dry then
        let r := deleteOktetoPhase dry exit cat rest
        (Action.logDeleteOkteto e.name :: r.1, r.2)
      else if exit j = 0 then
        let r := deleteOktetoPhase dry exit
          (modifyIdx (fun e => { e with sleeping := true }) cat j) rest
        (Action.logDeleteOkteto e.name :: Action.callDestroyOkteto e.name :: r.1, r.2)
      else
        ([Action.logDeleteOkteto e.name, Action.callDestroyOkteto e.name], cat, false)

/-- The whole input state of one `run` invocation: the three fetched
catalogs (with back-links still unset as fetched) plus the outcomes the
external services would give each delete call. -/
structure RunInput where
  branches : List String
  github : List GitHubDeployment
  okteto : List OktetoDeployment
  ghStatus : Int → Nat
  okExit : Nat → Nat

structure RunResult where
  trace : List Action
  oktetoFinal : List OktetoDeployment
  ok : Bool

/-- `run`: match, classify, delete GitHub deployments oldest-first, then
delete queued Okteto environments. -/
def runModel (dry : Bool) (inp : RunInput) : RunResult :=
  let c := connect_deployments ⟨inp.github, inp.okteto⟩
  let rg := remove_list_github inp.branches c
  let plan := insertionSortKey (ghKey c) rg
  let trG := deleteGithubPhase dry c.github inp.ghStatus plan
  let ro := environments_to_delete inp.branches c
  let r := deleteOktetoPhase dry inp.okExit c.okteto ro
  ⟨trG ++ r.1, r.2.1, r.2.2⟩

/-! ### Trace observation helpers -/

/-- A record identity targeted by a log line or a delete call: a GitHub
deployment id or an Okteto environment name. -/
inductive Target where
  | gh (id : Int)
  | ok (name : String)
deriving Repr, DecidableEq

/-- The records a trace reports as to-be-deleted (its log lines), in order. -/
def reportedTargets : List Action → List Target :=
  List.filterMap (fun a =>
    match a with
    | .logDeleteGithub _ i => some (.gh i)
    | .logDeleteOkteto n => some (.ok n)
    | _ => none)

/-- The records a trace actually issues delete calls for, in order. -/
def deletedTargets : List Action → List Target :=
  List.filterMap (fun a =>
    match a with
    | .callDeleteGithub i => some (.gh i)
    | .callDestroyOkteto n => some (.ok n)
    | _ => none)

/-- Whether an action is an outbound delete call (vs a log line). -/
def isCall : Action → Bool
  | .callDeleteGithub _ => true
  | .callDestroyOkteto _ => true
  | _ => false

/-- The GitHub deployment ids a trace issues DELETE calls for, in order. -/
def ghCallIds : List Action → List Int :=
  List.filterMap (fun a =>
    match a with
    | .callDeleteGithub i => some i
    | _ => none)

/-- The GitHub deployment ids a trace logs as to-be-deleted, in order. -/
def ghLogIds : List Action → List Int :=
  List.filterMap (fun a =>
    match a with
    | .logDeleteGithub _ i => some i
    | _ => none)

/-- Deployment id at catalog index `i` (for stating trace correspondences). -/
def ghIdAt (ghs : List GitHubDeployment) (i : Nat) : Int :=
  match ghs.get? i with
  | some d => d.deploy_id
  | none => 0

/-- Environment name at catalog index `j`. -/
def okNameAt (cat : List OktetoDeployment) (j : Nat) : String :=
  match cat.get? j with
  | some e => e.name
  | none => ""

/-- The matched-and-classified catalog state `run` computes before deleting. -/
def runCatalogs (inp : RunInput) : Catalogs :=
  connect_deployments ⟨inp.github, inp.okteto⟩

/-- The GitHub deletion plan of `run`: the queued deployments sorted
ascending by creation timestamp. -/
def runGhPlan (inp : RunInput) : List Nat :=
  insertionSortKey (ghKey (runCatalogs inp)) (remove_list_github inp.branches (runCatalogs inp))

/-! ## Lemmas about the stable key sort -/

theorem orderedInsertKey_perm (k : Nat → Int) (x : Nat) (l : List Nat) :
    (orderedInsertKey k x l).Perm (x :: l) := by
  induction l with
  | nil => simp [orderedInsertKey]
  | cons y ys ih =>
    by_cases h : k x ≤ k y
    · simp [orderedInsertKey, h]
    · simp only [orderedInsertKey, if_neg h]
      exact (ih.cons y).trans (List.Perm.swap x y ys)

theorem insertionSortKey_perm (k : Nat → Int) (l : List Nat) :
    (insertionSortKey k l).Perm l := by
  induction l with
  | nil => simp [insertionSortKey]
  | cons x xs ih => exact (orderedInsertKey_perm k x _).trans (ih.cons x)

theorem pairwise_orderedInsertKey (k : Nat → Int) (x : Nat) (l : List Nat)
    (h : l.Pairwise (fun a b => k a ≤ k b)) :
    (orderedInsertKey k x l).Pairwise (fun a b => k a ≤ k b) := by
  induction l with
  | nil => simp [orderedInsertKey]
  | cons y ys ih =>
    rcases List.pairwise_cons.mp h with ⟨hy, hys⟩
    by_cases hxy : k x ≤ k y
    · simp only [orderedInsertKey, if_pos hxy]
      refine List.pairwise_cons.mpr ⟨?_, h⟩
      intro z hz
      rcases List.mem_cons.mp hz with rfl | hz
      · exact hxy
      · exact le_trans hxy (hy z hz)
    · simp only [orderedInsertKey, if_neg hxy]
      refine List.pairwise_cons.mpr ⟨?_, ih hys⟩
      intro z hz
      rcases List.mem_cons.mp ((orderedInsertKey_perm k x ys).mem_iff.mp hz) with rfl | hz
      · exact le_of_lt (lt_of_not_le hxy)
      · exact hy z hz

theorem pairwise_insertionSortKey (k : Nat → Int) (l : List Nat) :
    (insertionSortKey k l).Pairwise (fun a b => k a ≤ k b) := by
  induction l with
  | nil => simp [insertionSortKey]
  | cons x xs ih => exact pairwise_orderedInsertKey k x _ ih

theorem filter_orderedInsertKey (k : Nat → Int) (x : Nat) (l : List Nat) (t : Int) :
    (orderedInsertKey k x l).filter (fun i => k i == t) =
      (if k x == t then [x] else []) ++ l.filter (fun i => k i == t) := by
  induction l with
  | nil => by_cases h : k x == t <;> simp [orderedInsertKey, h]
  | cons y ys ih =>
    by_cases hxy : k x ≤ k y
    · by_cases h : k x == t <;>
        simp [orderedInsertKey, if_pos hxy, List.filter_cons, h]
    · simp only [orderedInsertKey, if_neg hxy]
      by_cases h : k x == t
      · have hyx : k y < k x := lt_of_not_le hxy
        have hyt : ¬ (k y == t) := by
          have hxt : k x = t := by exact_mod_cast beq_iff_eq.mp h
          intro hc
          have : k y = t := by exact_mod_cast beq_iff_eq.mp hc
          omega
        simp [List.filter_cons, hyt, ih, h]
      · by_cases hy : k y == t <;> simp [List.filter_cons, hy, ih, h]

theorem filter_insertionSortKey (k : Nat → Int) (l : List Nat) (t : Int) :
    (insertionSortKey k l).filter (fun i => k i == t) = l.filter (fun i => k i == t) := by
  induction l with
  | nil => rfl
  | cons x xs ih =>
    rw [insertionSortKey, filter_orderedInsertKey, ih]
    by_cases h : k x == t <;> simp [List.filter_cons, h]

/-! ## Lemmas about the deletion phase traces -/

theorem ghCallIds_append (tr tr' : List Action) :
    ghCallIds (tr ++ tr') = ghCallIds tr ++ ghCallIds tr' :=
  List.filterMap_append ..

theorem ghLogIds_append (tr tr' : List Action) :
    ghLogIds (tr ++ tr') = ghLogIds tr ++ ghLogIds tr' :=
  List.filterMap_append ..

theorem ghCallIds_deleteGithubPhase (ghs : List GitHubDeployment) (status : Int → Nat)
    (plan : List Nat) (h : ∀ i ∈ plan, i < ghs.length) :
    ghCallIds (deleteGithubPhase false ghs status plan) = plan.map (ghIdAt ghs) := by
  induction plan with
  | nil => rfl
  | cons i rest ih =>
    have hi : i < ghs.length := h i (List.mem_cons_self i rest)
    have hd : ghs[i]? = some ghs[i] := List.getElem?_eq_getElem hi
    have ihr := ih (fun i' hi' => h i' (List.mem_cons_of_mem i hi'))
    simpa [deleteGithubPhase, ghCallIds, ghIdAt, hd] using ihr

theorem ghLogIds_deleteGithubPhase (dry : Bool) (ghs : List GitHubDeployment)
    (status : Int → Nat) (plan : List Nat) (h : ∀ i ∈ plan, i < ghs.length) :
    ghLogIds (deleteGithubPhase dry ghs status plan) = plan.map (ghIdAt ghs) := by
  induction plan with
  | nil => rfl
  | cons i rest ih =>
    have hi : i < ghs.length := h i (List.mem_cons_self i rest)
    have hd : ghs[i]? = some ghs[i] := List.getElem?_eq_getElem hi
    have ihr := ih (fun i' hi' => h i' (List.mem_cons_of_mem i hi'))
    cases dry <;> simpa [deleteGithubPhase, ghLogIds, ghIdAt, hd] using ihr

theorem ghCallIds_deleteOktetoPhase (dry : Bool) (exit : Nat → Nat)
    (cat : List OktetoDeployment) (plan : List Nat) :
    ghCallIds (deleteOktetoPhase dry exit cat plan).1 = [] := by
  induction plan generalizing cat with
  | nil => rfl
  | cons j rest ih =>
    cases hj : cat[j]? with
    | none => simpa [deleteOktetoPhase, hj] using ih cat
    | some e =>
      cases dry with
      | true => simpa [deleteOktetoPhase, hj, ghCallIds] using ih cat
      | false =>
        by_cases hx : exit j = 0
        · simpa [deleteOktetoPhase, hj, hx, ghCallIds] using
            ih (modifyIdx (fun e => { e with sleeping := true }) cat j)
        · simp [deleteOktetoPhase, hj, hx, ghCallIds]

theorem ghLogIds_deleteOktetoPhase (dry : Bool) (exit : Nat → Nat)
    (cat : List OktetoDeployment) (plan : List Nat) :
    ghLogIds (deleteOktetoPhase dry exit cat plan).1 = [] := by
  induction plan generalizing cat with
  | nil => rfl
  | cons j rest ih =>
    cases hj : cat[j]? with
    | none => simpa [deleteOktetoPhase, hj] using ih cat
    | some e =>
      cases dry with
      | true => simpa [deleteOktetoPhase, hj, ghLogIds] using ih cat
      | false =>
        by_cases hx : exit j = 0
        · simpa [deleteOktetoPhase, hj, hx, ghLogIds] using
            ih (modifyIdx (fun e => { e with sleeping := true }) cat j)
        · simp [deleteOktetoPhase, hj, hx, ghLogIds]

theorem remove_list_github_lt (branches : List String) (c : Catalogs) :
    ∀ i ∈ remove_list_github branches c, i < c.github.length := by
  intro i hi
  have := (List.mem_filter.mp hi).1
  exact List.mem_range.mp this

theorem runGhPlan_lt (inp : RunInput) :
    ∀ i ∈ runGhPlan inp, i < (runCatalogs inp).github.length := by
  intro i hi
  exact remove_list_github_lt _ _ i ((insertionSortKey_perm _ _).mem_iff.mp hi)

theorem runModel_trace (dry : Bool) (inp : RunInput) :
    (runModel dry inp).trace =
      deleteGithubPhase dry (runCatalogs inp).github inp.ghStatus (runGhPlan inp) ++
        (deleteOktetoPhase dry inp.okExit (runCatalogs inp).okteto
          (environments_to_delete inp.branches (runCatalogs inp))).1 :=
  rfl

/-- C1: the deployment deletion phase of `run` executes (and, in dry-run,
reports) exactly the queued GitHub deployments sorted ascending by creation
timestamp, and the sort is a stable permutation of the queue: deployments
with equal creation timestamps keep their queueing order (the filter at any
fixed timestamp is unchanged). -/
theorem C1_github_deletions_sorted_stable (inp : RunInput) :
    ghCallIds (runModel false inp).trace = (runGhPlan inp).map (ghIdAt (runCatalogs inp).github) ∧
    ghLogIds (runModel true inp).trace = (runGhPlan inp).map (ghIdAt (runCatalogs inp).github) ∧
    (runGhPlan inp).Pairwise (fun a b => ghKey (runCatalogs inp) a ≤ ghKey (runCatalogs inp) b) ∧
    (runGhPlan inp).Perm (remove_list_github inp.branches (runCatalogs inp)) ∧
    ∀ t : Int,
      (runGhPlan inp).filter (fun i => ghKey (runCatalogs inp) i == t) =
        (remove_list_github inp.branches (runCatalogs inp)).filter
          (fun i => ghKey (runCatalogs inp) i == t) := by
  refine ⟨?_, ?_, ?_, ?_, ?_⟩
  · rw [runModel_trace, ghCallIds_append,
      ghCallIds_deleteGithubPhase _ _ _ (runGhPlan_lt inp), ghCallIds_deleteOktetoPhase,
      List.append_nil]
  · rw [runModel_trace, ghLogIds_append,
      ghLogIds_deleteGithubPhase _ _ _ _ (runGhPlan_lt inp), ghLogIds_deleteOktetoPhase,
      List.append_nil]
  · exact pairwise_insertionSortKey _ _
  · exact insertionSortKey_perm _ _
  · exact fun t => filter_insertionSortKey _ _ t

/-! ## Dry-run lemmas (C5) -/

theorem reportedTargets_append (tr tr' : List Action) :
    reportedTargets (tr ++ tr') = reportedTargets tr ++ reportedTargets tr' :=
  List.filterMap_append ..

theorem deletedTargets_append (tr tr' : List Action) :
    deletedTargets (tr ++ tr') = deletedTargets tr ++ deletedTargets tr' :=
  List.filterMap_append ..

theorem isCall_deleteGithubPhase_dry (ghs : List GitHubDeployment) (status : Int → Nat)
    (plan : List Nat) : ∀ a ∈ deleteGithubPhase true ghs status plan, isCall a = false := by
  induction plan with
  | nil => intro a ha; cases ha
  | cons i rest ih =>
    intro a ha
    rcases hd : ghs.get? i with _ | d
    · rw [deleteGithubPhase, hd] at ha
      exact ih a ha
    · rw [deleteGithubPhase, hd] at ha
      simp only [if_pos rfl, List.nil_append, List.mem_cons] at ha
      rcases ha with rfl | ha
      · rfl
      · exact ih a ha

theorem isCall_deleteOktetoPhase_dry (exit : Nat → Nat) (cat : List OktetoDeployment)
    (plan : List Nat) : ∀ a ∈ (deleteOktetoPhase true exit cat plan).1, isCall a = false := by
  induction plan generalizing cat with
  | nil => intro a ha; cases ha
  | cons j rest ih =>
    intro a ha
    rcases hj : cat.get? j with _ | e
    · rw [deleteOktetoPhase, hj] at ha
      exact ih cat a ha
    · rw [deleteOktetoPhase, hj] at ha
      simp at ha
      rcases ha with rfl | ha
      · rfl
      · exact ih cat a ha

/-- Matching the Okteto deletion queue against the catalog: the names `run`
would report/destroy, in queue order (invalid indices contribute nothing,
exactly as the phase skips them). -/
def okExpected (cat : List OktetoDeployment) (plan : List Nat) : List Target :=
  plan.filterMap (fun j => (cat.get? j).map (fun e => Target.ok e.name))

theorem okExpected_modify (f : OktetoDeployment → OktetoDeployment)
    (hf : ∀ e, (f e).name = e.name) (cat : List OktetoDeployment) (i : Nat)
    (plan : List Nat) : okExpected (modifyIdx f cat i) plan = okExpected cat plan := by
  induction plan with
  | nil => rfl
  | cons j rest ih =>
    unfold okExpected at *
    rw [List.filterMap_cons, List.filterMap_cons, ih]
    by_cases hji : j = i
    · subst hji
      rw [get?_modifyIdx_self]
      cases cat.get? j with
      | none => rfl
      | some e => simp [hf]
    · rw [get?_modifyIdx_ne _ _ _ _ hji]

theorem reported_deleteOktetoPhase_dry (exit : Nat → Nat) (cat : List OktetoDeployment)
    (plan : List Nat) :
    reportedTargets (deleteOktetoPhase true exit cat plan).1 = okExpected cat plan := by
  induction plan generalizing cat with
  | nil => rfl
  | cons j rest ih =>
    rcases hj : cat[j]? with _ | e <;>
      simp [deleteOktetoPhase, hj, reportedTargets, okExpected, List.filterMap_cons] <;>
      simpa [reportedTargets, okExpected] using ih cat

theorem deleted_deleteOktetoPhase_live (exit : Nat → Nat) (cat : List OktetoDeployment)
    (plan : List Nat) (hx : ∀ j ∈ plan, exit j = 0) :
    deletedTargets (deleteOktetoPhase false exit cat plan).1 = okExpected cat plan := by
  induction plan generalizing cat with
  | nil => rfl
  | cons j rest ih =>
    have hxr : ∀ j' ∈ rest, exit j' = 0 := fun j' hj' => hx j' (List.mem_cons_of_mem j hj')
    rcases hj : cat[j]? with _ | e
    · simpa [deleteOktetoPhase, hj, okExpected, List.filterMap_cons] using ih cat hxr
    · have hx0 : exit j = 0 := hx j (List.mem_cons_self j rest)
      have ihm := ih (modifyIdx (fun e => { e with sleeping := true }) cat j) hxr
      rw [okExpected_modify (fun e => { e with sleeping := true }) (fun _ => rfl)] at ihm
      simpa [deleteOktetoPhase, hj, hx0, deletedTargets, okExpected, List.filterMap_cons]
        using ihm

theorem deleted_deleteGithubPhase_eq_reported (ghs : List GitHubDeployment)
    (status status' : Int → Nat) (plan : List Nat) :
    deletedTargets (deleteGithubPhase false ghs status plan) =
      reportedTargets (deleteGithubPhase true ghs status' plan) := by
  induction plan with
  | nil => rfl
  | cons i rest ih =>
    rcases hd : ghs[i]? with _ | d <;>
      simpa [deleteGithubPhase, hd, deletedTargets, reportedTargets] using ih

/-- C5: with the dry-run flag set, `run` performs no deletion call against
either registry, and the sequence of records it reports as to-be-deleted
(oldest-first deployments, then queued environments) is exactly the sequence
of records a non-dry run on the same state deletes, in the same order
(provided the non-dry run's destroy commands exit cleanly, since a failing
destroy aborts the remainder). -/
theorem C5_dry_run_plan (inp : RunInput) :
    (∀ a ∈ (runModel true inp).trace, isCall a = false) ∧
    ((∀ j, inp.okExit j = 0) →
      deletedTargets (runModel false inp).trace = reportedTargets (runModel true inp).trace) := by
  constructor
  · intro a ha
    rw [runModel_trace] at ha
    rcases List.mem_append.mp ha with h | h
    · exact isCall_deleteGithubPhase_dry _ _ _ a h
    · exact isCall_deleteOktetoPhase_dry _ _ _ a h
  · intro hx
    rw [runModel_trace, runModel_trace, deletedTargets_append, reportedTargets_append]
    rw [deleted_deleteGithubPhase_eq_reported _ inp.ghStatus inp.ghStatus]
    rw [deleted_deleteOktetoPhase_live _ _ _ (fun j _ => hx j),
      reported_deleteOktetoPhase_dry]

/-- Witness for C5 at a concrete state: one live branch, one matching
deployment/environment pair plus one orphaned deployment; all destroys
succeed. -/
theorem C5_dry_run_plan_witness :
    deletedTargets (runModel false
        ⟨["main"],
         [⟨1, "preview-a", "main", "deploy", 10, "https://preview-a.example.com", none⟩,
          ⟨2, "preview-b", "gone", "deploy", 5, "https://preview-b.example.com", none⟩],
         [⟨"preview-a", "personal", false, none⟩, ⟨"preview-b", "personal", false, none⟩],
         fun _ => 204, fun _ => 0⟩).trace =
      reportedTargets (runModel true
        ⟨["main"],
         [⟨1, "preview-a", "main", "deploy", 10, "https://preview-a.example.com", none⟩,
          ⟨2, "preview-b", "gone", "deploy", 5, "https://preview-b.example.com", none⟩],
         [⟨"preview-a", "personal", false, none⟩, ⟨"preview-b", "personal", false, none⟩],
         fun _ => 204, fun _ => 0⟩).trace :=
  (C5_dry_run_plan _).2 (fun _ => rfl)

/-! ## C8: GitHub deletion failures -/

/-- C8 counterexample: `run` ignores the status returned by a GitHub
deployment deletion — on a state with two orphaned deployments, the run in
which every DELETE call fails (HTTP 500) has *exactly* the same observable
behavior (log lines, outbound calls, final state) as the run in which every
call succeeds (HTTP 204).  Nothing in the trace records the failure, so the
claim that "the failure is logged" is false: no log line (nor any other
observable) depends on the deletion status. -/
theorem C8_counterexample_failure_not_logged :
    runModel false
        ⟨["main"],
         [⟨1, "preview-a", "gone", "deploy", 10, "https://preview-a.example.com", none⟩,
          ⟨2, "preview-b", "gone", "deploy", 5, "https://preview-b.example.com", none⟩],
         [], fun _ => 500, fun _ => 0⟩ =
      runModel false
        ⟨["main"],
         [⟨1, "preview-a", "gone", "deploy", 10, "https://preview-a.example.com", none⟩,
          ⟨2, "preview-b", "gone", "deploy", 5, "https://preview-b.example.com", none⟩],
         [], fun _ => 204, fun _ => 0⟩ :=
  rfl

/-- The GitHub deletion loop discards `deployment.delete()`'s return value,
so its trace does not depend on the HTTP statuses the calls return. -/
theorem deleteGithubPhase_status_irrel (dry : Bool) (ghs : List GitHubDeployment)
    (f f' : Int → Nat) (plan : List Nat) :
    deleteGithubPhase dry ghs f plan = deleteGithubPhase dry ghs f' plan := by
  induction plan with
  | nil => rfl
  | cons i rest ih =>
    cases hd : ghs.get? i <;> simp [deleteGithubPhase, hd, ih]

/-- C8 (amended): when a GitHub deployment deletion call returns a
non-success status the failure is ignored rather than logged — the whole run
result is independent of the statuses the DELETE calls return — and the run
continues with the remaining deployment and environment deletions: every
queued deployment receives a DELETE call no matter what statuses earlier
calls returned. -/
theorem C8_github_delete_failure_ignored (inp : RunInput) (f f' : Int → Nat) :
    runModel false { inp with ghStatus := f } = runModel false { inp with ghStatus := f' } ∧
    ghCallIds (runModel false inp).trace =
      (runGhPlan inp).map (ghIdAt (runCatalogs inp).github) := by
  constructor
  · simp only [runModel]
    rw [deleteGithubPhase_status_irrel false _ f f']
  rw [runModel_trace, ghCallIds_append,
    ghCallIds_deleteGithubPhase _ _ _ (runGhPlan_lt inp), ghCallIds_deleteOktetoPhase,
    List.append_nil]

/-! ## C2: staleness classification of deployments -/

theorem contains_iff_mem {l : List String} {a : String} : l.contains a = true ↔ a ∈ l :=
  List.elem_iff

/-- C2: after matching and classification, the deployment at index `i` is in
`remove_list_github` if and only if its Okteto back-link is null or its
normalized branch is absent from the branch catalog; and whenever it is
queued with its branch absent, its linked environment (if any) is also in
`remove_list_okteto`. -/
theorem C2_deployment_staleness (branches : List String) (c : Catalogs) (i : Nat)
    (d : GitHubDeployment) (hd : c.github.get? i = some d) :
    (i ∈ remove_list_github branches c ↔ (d.okteto = none ∨ d.branch ∉ branches)) ∧
    (∀ j, d.okteto = some j → d.branch ∉ branches →
      j ∈ environments_to_delete branches c) := by
  have hi : i < c.github.length := by
    rcases List.get?_eq_some.mp hd with ⟨h, _⟩
    exact h
  constructor
  · rw [remove_list_github, List.mem_filter]
    have hp : removeGhPred branches c i =
        (d.okteto.isNone || !(branches.contains d.branch)) := by
      simp only [removeGhPred, hd]
    rw [hp]
    constructor
    · rintro ⟨-, hb⟩
      rcases Bool.or_eq_true_iff.mp hb with h | h
      · exact Or.inl (Option.isNone_iff_eq_none.mp h)
      · refine Or.inr (fun hc => ?_)
        rw [Bool.not_eq_eq_eq_not, Bool.not_true] at h
        rw [← contains_iff_mem] at hc
        rw [h] at hc
        cases hc
    · intro h
      refine ⟨List.mem_range.mpr hi, ?_⟩
      rcases h with h | h
      · exact Bool.or_eq_true_iff.mpr (Or.inl (Option.isNone_iff_eq_none.mpr h))
      · refine Bool.or_eq_true_iff.mpr (Or.inr ?_)
        rw [Bool.not_eq_eq_eq_not, Bool.not_true]
        cases hcb : branches.contains d.branch with
        | false => rfl
        | true => exact absurd (contains_iff_mem.mp hcb) h
  · intro j hj hb
    refine List.mem_append.mpr (Or.inl ?_)
    refine List.mem_filterMap.mpr ⟨i, List.mem_range.mpr hi, ?_⟩
    have hcb : branches.contains d.branch = false := by
      cases hcb : branches.contains d.branch with
      | false => rfl
      | true => exact absurd (contains_iff_mem.mp hcb) hb
    simp only [cascadeEnv, hd, hj, hcb, Bool.false_eq_true, if_false]

/-- Witness for C2: a deployment whose branch `gone` is missing from the
branch catalog and whose back-link points at environment 0 is queued on both
sides. -/
theorem C2_deployment_staleness_witness :
    (0 ∈ remove_list_github ["main"]
        ⟨[⟨1, "preview-a", "gone", "deploy", 10, "https://a", some 0⟩],
         [⟨"preview-a", "personal", false, some 0⟩]⟩ ↔
      ((some 0 : Option Nat) = none ∨ "gone" ∉ ["main"])) ∧
    (∀ j, (some 0 : Option Nat) = some j → "gone" ∉ ["main"] →
      j ∈ environments_to_delete ["main"]
        ⟨[⟨1, "preview-a", "gone", "deploy", 10, "https://a", some 0⟩],
         [⟨"preview-a", "personal", false, some 0⟩]⟩) :=
  C2_deployment_staleness ["main"]
    ⟨[⟨1, "preview-a", "gone", "deploy", 10, "https://a", some 0⟩],
     [⟨"preview-a", "personal", false, some 0⟩]⟩ 0
    ⟨1, "preview-a", "gone", "deploy", 10, "https://a", some 0⟩ rfl

/-! ## Invariants of the matcher (`connect_deployments`)

The matcher is a fold over environment indices; the invariant below captures
the state after the first `k` environments have been processed: scanned
fields (URLs, names) are untouched, each processed environment holds its
first-match link, unprocessed environments are untouched, and every
deployment back-link was written by some processed environment whose first
match it is. -/

def ConnectInv (c₀ : Catalogs) (k : Nat) (c : Catalogs) : Prop :=
  c.github.length = c₀.github.length ∧
  c.okteto.length = c₀.okteto.length ∧
  ghUrls c = ghUrls c₀ ∧
  (∀ j, (c.okteto.get? j).map (fun e => e.name) =
    (c₀.okteto.get? j).map (fun e => e.name)) ∧
  (∀ j e₀, j < k → c₀.okteto.get? j = some e₀ →
    (c.okteto.get? j).map (fun e => e.github) =
      some (firstMatchIdx e₀.name (ghUrls c₀))) ∧
  (∀ j, k ≤ j → c.okteto.get? j = c₀.okteto.get? j) ∧
  (∀ i d j, c.github.get? i = some d → d.okteto = some j →
    j < k ∧ ∃ e₀, c₀.okteto.get? j = some e₀ ∧
      firstMatchIdx e₀.name (ghUrls c₀) = some i)

theorem connect_inv (c₀ : Catalogs) (h₀ : Clean c₀) :
    ∀ k, ConnectInv c₀ k ((List.range k).foldl connectStep c₀) := by
  intro k
  induction k with
  | zero =>
    refine ⟨rfl, rfl, rfl, fun j => rfl, fun j e₀ hj => absurd hj (Nat.not_lt_zero j),
      fun j _ => rfl, fun i d j hd hl => absurd hl ?_⟩
    have : d.okteto = none := h₀.1 d (List.get?_mem hd)
    simp [this]
  | succ k ih =>
    rw [List.range_succ, List.foldl_append, List.foldl_cons, List.foldl_nil]
    obtain ⟨hgl, hol, hurl, hnm, hlt, hge, hgh⟩ := ih
    cases hk : ((List.range k).foldl connectStep c₀).okteto.get? k with
    | none =>
      have hstep : connectStep ((List.range k).foldl connectStep c₀) k =
          (List.range k).foldl connectStep c₀ := by
        simp only [connectStep, hk]
      rw [hstep]
      have hk₀ : c₀.okteto.get? k = none := by
        have := hnm k
        rw [hk] at this
        cases hc : c₀.okteto.get? k with
        | none => rfl
        | some e₀ => rw [hc] at this; cases this
      refine ⟨hgl, hol, hurl, hnm, ?_, ?_, ?_⟩
      · intro j e₀ hj hje
        rcases Nat.lt_succ_iff_lt_or_eq.mp hj with hj | rfl
        · exact hlt j e₀ hj hje
        · rw [hk₀] at hje; cases hje
      · intro j hj
        exact hge j (Nat.le_of_succ_le hj)
      · intro i d j hd hl
        obtain ⟨hjk, he⟩ := hgh i d j hd hl
        exact ⟨Nat.lt_succ_of_lt hjk, he⟩
    | some env =>
      -- the name of environment k is its original name
      have hnmk := hnm k
      rw [hk] at hnmk
      obtain ⟨e₀k, he₀k, hname⟩ : ∃ e₀, c₀.okteto.get? k = some e₀ ∧ e₀.name = env.name := by
        cases hc : c₀.okteto.get? k with
        | none => rw [hc] at hnmk; cases hnmk
        | some e₀ =>
          rw [hc] at hnmk
          exact ⟨e₀, rfl, (Option.some_inj.mp hnmk).symm⟩
      have henvk : env = e₀k := by
        have h1 := hge k (Nat.le_refl k)
        rw [hk, he₀k] at h1
        exact Option.some_inj.mp h1
      cases hm : firstMatchIdx env.name (ghUrls ((List.range k).foldl connectStep c₀)) with
      | none =>
        have hstep : connectStep ((List.range k).foldl connectStep c₀) k =
            (List.range k).foldl connectStep c₀ := by
          simp only [connectStep, hk, hm]
        rw [hstep]
        have hm₀ : firstMatchIdx e₀k.name (ghUrls c₀) = none := by
          rw [hname, ← hurl]
          exact hm
        refine ⟨hgl, hol, hurl, hnm, ?_, ?_, ?_⟩
        · intro j e₀ hj hje
          by_cases hjk : j = k
          · subst hjk
            have he : e₀ = e₀k := by
              rw [he₀k] at hje
              exact (Option.some_inj.mp hje).symm
            have hg0 : env.github = none := by
              rw [henvk]
              exact h₀.2 e₀k (List.get?_mem he₀k)
            rw [hk, he, hm₀]
            simp [hg0]
          · exact hlt j e₀ (by omega) hje
        · intro j hj
          exact hge j (Nat.le_of_succ_le hj)
        · intro i d j hd hl
          obtain ⟨hjk, he⟩ := hgh i d j hd hl
          exact ⟨Nat.lt_succ_of_lt hjk, he⟩
      | some i =>
        have hstep : connectStep ((List.range k).foldl connectStep c₀) k =
            { github := setGhLink i (some k) ((List.range k).foldl connectStep c₀).github
              okteto := setOkLink k (some i) ((List.range k).foldl connectStep c₀).okteto } := by
          simp only [connectStep, hk, hm]
        rw [hstep]
        have hm₀ : firstMatchIdx e₀k.name (ghUrls c₀) = some i := by
          rw [hname, ← hurl]
          exact hm
        refine ⟨?_, ?_, ?_, ?_, ?_, ?_, ?_⟩
        · simpa [setGhLink, modifyIdx_length] using hgl
        · simpa [setOkLink, modifyIdx_length] using hol
        · rw [← hurl]
          exact map_modifyIdx _ _ _ _ (fun d => rfl)
        · intro j
          by_cases hjk : j = k
          · subst hjk
            rw [setOkLink, get?_modifyIdx_self, hk, ← hnm j, hk]
            rfl
          · rw [setOkLink, get?_modifyIdx_ne _ _ _ _ hjk]
            exact hnm j
        · intro j e₀ hj hje
          by_cases hjk : j = k
          · subst hjk
            have he : e₀ = e₀k := by
              rw [he₀k] at hje
              exact (Option.some_inj.mp hje).symm
            rw [setOkLink, get?_modifyIdx_self, hk, he, hm₀]
            rfl
          · rw [setOkLink, get?_modifyIdx_ne _ _ _ _ hjk]
            exact hlt j e₀ (by omega) hje
        · intro j hj
          rw [setOkLink, get?_modifyIdx_ne _ _ _ _ (by omega)]
          exact hge j (by omega)
        · intro i' d j hd hl
          by_cases hii : i' = i
          · subst hii
            rw [setGhLink, get?_modifyIdx_self] at hd
            cases hgi : ((List.range k).foldl connectStep c₀).github.get? i' with
            | none => rw [hgi] at hd; cases hd
            | some d₀ =>
              rw [hgi] at hd
              have hdd : d = { d₀ with okteto := some k } := (Option.some_inj.mp hd).symm
              have hjk : j = k := by
                rw [hdd] at hl
                exact (Option.some_inj.mp hl).symm
              subst hjk
              exact ⟨Nat.lt_succ_self j, e₀k, he₀k, hm₀⟩
          · rw [setGhLink, get?_modifyIdx_ne _ _ _ _ hii] at hd
            obtain ⟨hjk, he⟩ := hgh i' d j hd hl
            exact ⟨Nat.lt_succ_of_lt hjk, he⟩

/-! ## Consequences of the matcher invariant -/

theorem connect_final (c₀ : Catalogs) (h₀ : Clean c₀) :
    ConnectInv c₀ c₀.okteto.length (connect_deployments c₀) :=
  connect_inv c₀ h₀ c₀.okteto.length

/-- After matching, every environment's back-link is the first deployment
whose URL contains the environment's name (or `none`). -/
theorem connect_env_link (c₀ : Catalogs) (h₀ : Clean c₀) (j : Nat) (e : OktetoDeployment)
    (he : (connect_deployments c₀).okteto.get? j = some e) :
    e.github = firstMatchIdx e.name (ghUrls c₀) := by
  obtain ⟨-, hol, -, hnm, hlt, -, -⟩ := connect_final c₀ h₀
  have hj : j < c₀.okteto.length := by
    rcases List.get?_eq_some.mp he with ⟨h, -⟩
    rwa [hol] at h
  obtain ⟨e₀, he₀⟩ : ∃ e₀, c₀.okteto.get? j = some e₀ :=
    ⟨c₀.okteto.get ⟨j, hj⟩, List.get?_eq_get hj⟩
  have hname : e.name = e₀.name := by
    have := hnm j
    rw [he, he₀] at this
    exact Option.some_inj.mp this
  have h2 := hlt j e₀ hj he₀
  rw [he, Option.map_some'] at h2
  rw [hname]
  exact Option.some_inj.mp h2

/-- After matching, a deployment's back-link always points back: if the
deployment at index `i` links to environment `j`, environment `j` links to
deployment `i`. -/
theorem connect_gh_link_back (c₀ : Catalogs) (h₀ : Clean c₀) (i : Nat)
    (d : GitHubDeployment) (j : Nat)
    (hd : (connect_deployments c₀).github.get? i = some d) (hl : d.okteto = some j) :
    ∃ e, (connect_deployments c₀).okteto.get? j = some e ∧ e.github = some i := by
  obtain ⟨-, -, -, -, hlt, -, hgh⟩ := connect_final c₀ h₀
  obtain ⟨hj, e₀, he₀, hm⟩ := hgh i d j hd hl
  have := hlt j e₀ hj he₀
  cases he : (connect_deployments c₀).okteto.get? j with
  | none => rw [he] at this; cases this
  | some e =>
    rw [he, Option.map_some'] at this
    refine ⟨e, rfl, ?_⟩
    rw [Option.some_inj.mp this, hm]

/-! ## C4: the link relation established by the matcher -/

/-- The mutual-consistency clause of the claim, as a decidable check: every
back-link held by either side is pointed back by its partner. -/
def linksMutuallyConsistent (c : Catalogs) : Bool :=
  ((List.range c.github.length).all fun i =>
    match c.github.get? i with
    | some d =>
      match d.okteto with
      | some j =>
        match c.okteto.get? j with
        | some e => e.github == some i
        | none => false
      | none => true
    | none => true) &&
  ((List.range c.okteto.length).all fun j =>
    match c.okteto.get? j with
    | some e =>
      match e.github with
      | some i =>
        match c.github.get? i with
        | some d => d.okteto == some j
        | none => false
      | none => true
    | none => true)

/-- C4 counterexample: with one deployment whose URL `"xy"` contains the
names of both environments `"x"` and `"y"`, the matcher links both
environments to deployment 0, and the deployment's own back-link (set last,
by environment 1) does not point back at environment 0 — the link relation
is not mutually consistent, refuting the claim's "whenever one record holds
a back-link its partner's back-link points back to it". -/
theorem C4_counterexample_not_mutual :
    linksMutuallyConsistent
      (connect_deployments
        ⟨[⟨1, "dep", "main", "deploy", 0, "xy", none⟩],
         [⟨"x", "personal", false, none⟩, ⟨"y", "personal", false, none⟩]⟩) = false := by
  decide

/-- C4 (amended): after `connect_deployments` on freshly fetched catalogs,
every environment's back-link is the first deployment in catalog order whose
URL contains the environment's name as a substring (or none), and whenever a
deployment holds a back-link, that environment's back-link points back to
it.  The converse does not hold: when several environments match the same
deployment, each such environment keeps its back-link while the deployment
retains only the last one, so an environment's back-link need not be pointed
back. -/
theorem C4_matcher_links (c₀ : Catalogs) (h₀ : Clean c₀) :
    (∀ j e, (connect_deployments c₀).okteto.get? j = some e →
      e.github = firstMatchIdx e.name (ghUrls c₀)) ∧
    (∀ i d j, (connect_deployments c₀).github.get? i = some d → d.okteto = some j →
      ∃ e, (connect_deployments c₀).okteto.get? j = some e ∧ e.github = some i) :=
  ⟨fun j e he => connect_env_link c₀ h₀ j e he,
   fun i d j hd hl => connect_gh_link_back c₀ h₀ i d j hd hl⟩

/-- Witness for C4 (amended) on concrete clean catalogs: the single
environment ends up linked to the first of the two deployments whose URLs
contain its name. -/
theorem C4_matcher_links_witness :
    (⟨"preview-a", "personal", false, some 0⟩ : OktetoDeployment).github =
      firstMatchIdx "preview-a"
        (ghUrls ⟨[⟨1, "dep1", "main", "deploy", 0, "https://preview-a.example.com", none⟩,
                  ⟨2, "dep2", "main", "deploy", 1, "https://preview-a.example.org", none⟩],
                 [⟨"preview-a", "personal", false, none⟩]⟩) :=
  (C4_matcher_links
    ⟨[⟨1, "dep1", "main", "deploy", 0, "https://preview-a.example.com", none⟩,
      ⟨2, "dep2", "main", "deploy", 1, "https://preview-a.example.org", none⟩],
     [⟨"preview-a", "personal", false, none⟩]⟩
    ⟨by decide, by decide⟩).1 0 ⟨"preview-a", "personal", false, some 0⟩ (by decide)

/-! ## C3: staleness classification of environments -/

theorem cascadeEnv_some_inv (branches : List String) (c : Catalogs) (i j : Nat)
    (h : cascadeEnv branches c i = some j) :
    ∃ d, c.github.get? i = some d ∧ d.okteto = some j := by
  cases hd : c.github.get? i with
  | none => rw [cascadeEnv, hd] at h; cases h
  | some d =>
    cases hl : d.okteto with
    | none =>
      simp only [cascadeEnv, hd, hl] at h
      exact Option.noConfusion h
    | some j' =>
      simp only [cascadeEnv, hd, hl] at h
      by_cases hb : branches.contains d.branch = true
      · rw [if_pos hb] at h; cases h
      · rw [if_neg hb] at h
        exact ⟨d, rfl, by rw [hl, Option.some_inj.mp h]⟩

/-- C3: after matching, every environment whose GitHub back-link is null is
queued in `remove_list_okteto`; the environments queued by the
branch-missing cascade come first and all hold non-null back-links (so the
null-back-link check indeed runs after, and never re-queues, the cascade's
environments); and no environment index appears twice in the final queue. -/
theorem C3_orphan_environments (branches : List String) (c₀ : Catalogs) (h₀ : Clean c₀) :
    (∀ j e, (connect_deployments c₀).okteto.get? j = some e → e.github = none →
      j ∈ environments_to_delete branches (connect_deployments c₀)) ∧
    environments_to_delete branches (connect_deployments c₀) =
      remove_list_okteto_cascade branches (connect_deployments c₀) ++
        remove_list_okteto_missing (connect_deployments c₀) ∧
    (∀ j ∈ remove_list_okteto_cascade branches (connect_deployments c₀),
      ∃ e, (connect_deployments c₀).okteto.get? j = some e ∧ e.github ≠ none) ∧
    (environments_to_delete branches (connect_deployments c₀)).Nodup := by
  have hcasc : ∀ j ∈ remove_list_okteto_cascade branches (connect_deployments c₀),
      ∃ e, (connect_deployments c₀).okteto.get? j = some e ∧ ∃ i, e.github = some i := by
    intro j hj
    obtain ⟨i, -, hc⟩ := List.mem_filterMap.mp hj
    obtain ⟨d, hd, hl⟩ := cascadeEnv_some_inv branches (connect_deployments c₀) i j hc
    obtain ⟨e, he, hb⟩ := connect_gh_link_back c₀ h₀ i d j hd hl
    exact ⟨e, he, i, hb⟩
  refine ⟨?_, rfl, ?_, ?_⟩
  · intro j e he hnone
    refine List.mem_append.mpr (Or.inr ?_)
    refine List.mem_filter.mpr ⟨?_, ?_⟩
    · refine List.mem_range.mpr ?_
      rcases List.get?_eq_some.mp he with ⟨h, -⟩
      exact h
    · rw [he]
      simp [hnone]
  · intro j hj
    obtain ⟨e, he, i, hb⟩ := hcasc j hj
    exact ⟨e, he, by rw [hb]; exact fun h => Option.noConfusion h⟩
  · refine List.Nodup.append ?_ ?_ ?_
    · refine List.Nodup.filterMap ?_ (List.nodup_range _)
      intro a a' b hb hb'
      rw [Option.mem_def] at hb hb'
      obtain ⟨d, hd, hl⟩ := cascadeEnv_some_inv branches (connect_deployments c₀) a b hb
      obtain ⟨d', hd', hl'⟩ := cascadeEnv_some_inv branches (connect_deployments c₀) a' b hb'
      obtain ⟨e, he, hback⟩ := connect_gh_link_back c₀ h₀ a d b hd hl
      obtain ⟨e', he', hback'⟩ := connect_gh_link_back c₀ h₀ a' d' b hd' hl'
      rw [he] at he'
      have hee : e = e' := Option.some_inj.mp he'
      rw [← hee] at hback'
      rw [hback] at hback'
      exact Option.some_inj.mp hback'
    · exact (List.nodup_range _).filter _
    · intro j hj hj'
      obtain ⟨e, he, i, hb⟩ := hcasc j hj
      have hp := (List.mem_filter.mp hj').2
      rw [he] at hp
      simp only [Option.isNone_iff_eq_none] at hp
      rw [hp] at hb
      cases hb

/-- Witness for C3: one orphaned environment (no matching deployment) is
queued exactly once, after the cascade entry of the branch-missing pair. -/
theorem C3_orphan_environments_witness :
    (∀ j e, (connect_deployments
        ⟨[⟨1, "dep1", "gone", "deploy", 0, "https://preview-a.example.com", none⟩],
         [⟨"preview-a", "personal", false, none⟩, ⟨"orphan", "personal", false, none⟩]⟩).okteto.get? j = some e →
      e.github = none →
      j ∈ environments_to_delete ["main"] (connect_deployments
        ⟨[⟨1, "dep1", "gone", "deploy", 0, "https://preview-a.example.com", none⟩],
         [⟨"preview-a", "personal", false, none⟩, ⟨"orphan", "personal", false, none⟩]⟩)) ∧
    (environments_to_delete ["main"] (connect_deployments
        ⟨[⟨1, "dep1", "gone", "deploy", 0, "https://preview-a.example.com", none⟩],
         [⟨"preview-a", "personal", false, none⟩, ⟨"orphan", "personal", false, none⟩]⟩)).Nodup :=
  ⟨(C3_orphan_environments ["main"]
      ⟨[⟨1, "dep1", "gone", "deploy", 0, "https://preview-a.example.com", none⟩],
       [⟨"preview-a", "personal", false, none⟩, ⟨"orphan", "personal", false, none⟩]⟩
      ⟨by decide, by decide⟩).1,
   (C3_orphan_environments ["main"]
      ⟨[⟨1, "dep1", "gone", "deploy", 0, "https://preview-a.example.com", none⟩],
       [⟨"preview-a", "personal", false, none⟩, ⟨"orphan", "personal", false, none⟩]⟩
      ⟨by decide, by decide⟩).2.2.2⟩

/-! ## C6: the deployment-catalog filter -/

/-- C6: a raw deployment yields a catalog record exactly when its task is
`"deploy"`, its environment name is not ignored, and some status URL
contains the Okteto domain marker; and every catalog record's `url` is such
a matching status URL of that very deployment. -/
theorem C6_deployment_catalog_filter (domain : String) (ignore : List String)
    (statuses : Int → List String) (raws : List RawDeployment) :
    (∀ raw ∈ raws,
      (processRawDeployment domain ignore statuses raw ≠ none ↔
        (raw.task = "deploy" ∧ raw.environment ∉ ignore ∧
          ∃ u ∈ statuses raw.id, strContains u domain = true))) ∧
    (∀ d ∈ get_okteto_deployments domain ignore statuses raws,
      d.task = "deploy" ∧ d.name ∉ ignore ∧
        d.url ∈ statuses d.deploy_id ∧ strContains d.url domain = true) := by
  have hproc : ∀ raw d, processRawDeployment domain ignore statuses raw = some d →
      raw.task = "deploy" ∧ raw.environment ∉ ignore ∧
        d.task = raw.task ∧ d.name = raw.environment ∧ d.deploy_id = raw.id ∧
        d.url ∈ statuses raw.id ∧ strContains d.url domain = true := by
    intro raw d h
    rw [processRawDeployment] at h
    by_cases hc : (mkGitHubDeployment raw).task = "deploy" ∧
        ¬ ignore.contains (mkGitHubDeployment raw).name
    · rw [if_pos hc] at h
      cases hf : is_okteto_deployment domain (statuses raw.id) with
      | none => rw [hf] at h; cases h
      | some u =>
        rw [hf] at h
        have hd : d = { mkGitHubDeployment raw with url := u } :=
          (Option.some_inj.mp h).symm
        have hf' : (statuses raw.id).find? (fun v => strContains v domain) = some u := hf
        have hu : u ∈ statuses raw.id :=
          List.mem_of_find?_eq_some hf'
        have hpu : strContains u domain = true := by
          have := List.find?_some hf'
          simpa using this
        have htask : (mkGitHubDeployment raw).task = raw.task := rfl
        have hname : (mkGitHubDeployment raw).name = raw.environment := rfl
        refine ⟨by rw [← htask]; exact hc.1, ?_, ?_, ?_, ?_, ?_, ?_⟩
        · intro hmem
          exact hc.2 (by rw [hname]; exact contains_iff_mem.mpr hmem)
        · rw [hd]; exact rfl
        · rw [hd]; exact rfl
        · rw [hd]; exact rfl
        · rw [hd]; exact hu
        · rw [hd]; exact hpu
    · rw [if_neg hc] at h
      cases h
  constructor
  · intro raw _
    constructor
    · intro hne
      cases hp : processRawDeployment domain ignore statuses raw with
      | none => exact absurd hp hne
      | some d =>
        obtain ⟨h1, h2, -, -, -, hu, hpu⟩ := hproc raw d hp
        exact ⟨h1, h2, d.url, hu, hpu⟩
    · rintro ⟨h1, h2, u, hu, hpu⟩
      rw [processRawDeployment]
      have hc : (mkGitHubDeployment raw).task = "deploy" ∧
          ¬ ignore.contains (mkGitHubDeployment raw).name := by
        refine ⟨h1, fun hcon => h2 (contains_iff_mem.mp hcon)⟩
      rw [if_pos hc]
      cases hf : is_okteto_deployment domain (statuses raw.id) with
      | none =>
        have : ∀ x ∈ statuses raw.id, ¬ (strContains x domain = true) :=
          fun x hx => by
            have := List.find?_eq_none.mp hf x hx
            simpa using this
        exact absurd hpu (this u hu)
      | some u' => exact fun h => Option.noConfusion h
  · intro d hd
    obtain ⟨raw, -, hp⟩ := List.mem_filterMap.mp hd
    obtain ⟨h1, h2, htask, hname, hid, hu, hpu⟩ := hproc raw d hp
    refine ⟨by rw [htask]; exact h1, ?_, by rw [hid]; exact hu, hpu⟩
    rw [hname]
    exact h2

/-- Witness for C6: a concrete deploy-task deployment with a status URL on
the Okteto domain is accepted by the filter. -/
theorem C6_deployment_catalog_filter_witness :
    processRawDeployment "okteto.example" ["skip-me"]
        (fun _ => ["https://preview-1.okteto.example/"])
        ⟨1, "preview-1", "refs/heads/main", "deploy", 5⟩ ≠ none ↔
      ((⟨1, "preview-1", "refs/heads/main", "deploy", 5⟩ : RawDeployment).task = "deploy" ∧
        (⟨1, "preview-1", "refs/heads/main", "deploy", 5⟩ : RawDeployment).environment ∉
          ["skip-me"] ∧
        ∃ u ∈ (fun _ => ["https://preview-1.okteto.example/"] : Int → List String)
            ((⟨1, "preview-1", "refs/heads/main", "deploy", 5⟩ : RawDeployment).id),
          strContains u "okteto.example" = true) :=
  (C6_deployment_catalog_filter "okteto.example" ["skip-me"]
      (fun _ => ["https://preview-1.okteto.example/"])
      [⟨1, "preview-1", "refs/heads/main", "deploy", 5⟩]).1
    ⟨1, "preview-1", "refs/heads/main", "deploy", 5⟩ (List.mem_singleton.mpr rfl)

/-! ## C7: branch normalization -/

/-- C7: the claim says a ref without the `refs/heads/` prefix is stored
verbatim and one with it loses exactly that prefix; the code instead calls
Python `str.strip("refs/heads/")`, which removes *characters* of the set
`{r,e,f,s,/,h,a,d}` from both ends.  On the real-world ref
`refs/heads/feature` the stored branch is `"tu"`, not `"feature"`. -/
theorem C7_branch_strip_code_eval :
    (mkGitHubDeployment ⟨7, "preview-f", "refs/heads/feature", "deploy", 0⟩).branch = "tu" ∧
    specNormalizeRef "refs/heads/feature" = "feature" ∧
    (mkGitHubDeployment ⟨7, "preview-f", "refs/heads/feature", "deploy", 0⟩).branch ≠
      specNormalizeRef "refs/heads/feature" := by
  refine ⟨?_, ?_, ?_⟩ <;> decide

/-! ## C9: the preview-listing parser -/

/-- C9 counterexample: on a listing whose first non-empty line is a status
banner, the implemented parser skips it — the header is the first line
containing both `"Name"` and `"Scope"`, not the first non-empty line — and
yields one record; a parser following the claim's words (first non-empty
line becomes the header row) commits to the banner's tokens as field names
and fails on the next row.  The two disagree, refuting the claim. -/
theorem C9_counterexample_header_detection :
    oktetoGetAllGo none ["Status OK", "Name Scope Sleeping", "env1 personal true"] =
      .ok [⟨"env1", "personal", true, none⟩] ∧
    specOktetoGetAllGo none ["Status OK", "Name Scope Sleeping", "env1 personal true"] =
      .error () ∧
    oktetoGetAllGo none ["Status OK", "Name Scope Sleeping", "env1 personal true"] ≠
      specOktetoGetAllGo none ["Status OK", "Name Scope Sleeping", "env1 personal true"] := by
  refine ⟨?_, ?_, ?_⟩ <;> decide

/-- C9 (amended): the *first line containing both `"Name"` and `"Scope"` as
substrings* is taken as the header row and its space-delimited lowercased
tokens become the field names; lines before it (non-empty or not) are
skipped; every subsequent line is space-split and zipped positionally with
those field names to form one EnvironmentRecord; and a record is sleeping
exactly when its sleeping token, lowercased, is one of `"1"`, `"on"`,
`"true"`. -/
theorem C9_table_parsing (pre : List String) (hrow : String) (rest : List String)
    (hpre : ∀ r ∈ pre, ¬(strContains r "Name" = true ∧ strContains r "Scope" = true))
    (hn : strContains hrow "Name" = true) (hs : strContains hrow "Scope" = true) :
    oktetoGetAllGo none (pre ++ hrow :: rest) =
      oktetoGetAllGo (some ((splitTokens hrow).map strToLower)) rest ∧
    (∀ hs' tokens env, mkOkteto hs' tokens = some env →
      ∃ sl, dictLookup "sleeping" (hs'.zip tokens) = some sl ∧
        (env.sleeping = true ↔ strToLower sl ∈ ["1", "on", "true"])) ∧
    (∀ hs' rows envs, hs' ≠ [] →
      rows.mapM (fun r => mkOkteto hs' (splitTokens r)) = some envs →
      oktetoGetAllGo (some hs') rows = .ok envs) := by
  refine ⟨?_, ?_, ?_⟩
  · induction pre with
    | nil =>
      rw [List.nil_append, oktetoGetAllGo]
      rw [if_pos (by rw [hn, hs]; rfl)]
    | cons r pre' ih =>
      have hr := hpre r (List.mem_cons_self r pre')
      have hcond : (strContains r "Name" && strContains r "Scope") = false := by
        cases h1 : strContains r "Name" with
        | false => rfl
        | true =>
          cases h2 : strContains r "Scope" with
          | false => rfl
          | true => exact absurd ⟨h1, h2⟩ hr
      rw [List.cons_append, oktetoGetAllGo, hcond]
      simp only [Bool.false_eq_true, if_false]
      exact ih (fun r' hr' => hpre r' (List.mem_cons_of_mem r hr'))
  · intro hs' tokens env hmk
    rw [mkOkteto] at hmk
    cases h1 : dictLookup "name" (hs'.zip tokens) with
    | none => rw [h1] at hmk; cases hmk
    | some n =>
      cases h2 : dictLookup "scope" (hs'.zip tokens) with
      | none => rw [h1, h2] at hmk; cases hmk
      | some s =>
        cases h3 : dictLookup "sleeping" (hs'.zip tokens) with
        | none => rw [h1, h2, h3] at hmk; cases hmk
        | some sl =>
          rw [h1, h2, h3] at hmk
          refine ⟨sl, rfl, ?_⟩
          have he : env = OktetoDeployment.mk n s
              (List.contains ["1", "on", "true"] (strToLower sl)) none :=
            (Option.some_inj.mp hmk).symm
          rw [he]
          exact contains_iff_mem
  · intro hs' rows
    induction rows with
    | nil =>
      intro envs hne hmm
      rw [List.mapM_nil] at hmm
      simp only [Option.pure_def] at hmm
      rw [(Option.some_inj.mp hmm).symm]
      rfl
    | cons r rows' ih =>
      intro envs hne hmm
      rw [List.mapM_cons] at hmm
      rcases hmk : mkOkteto hs' (splitTokens r) with _ | env
      · rw [hmk] at hmm
        simp at hmm
      · rw [hmk] at hmm
        rcases hmm' : rows'.mapM (fun r => mkOkteto hs' (splitTokens r)) with _ | envs'
        · rw [hmm'] at hmm
          simp at hmm
        · rw [hmm'] at hmm
          simp only [Option.pure_def, Option.bind_eq_bind, Option.some_bind] at hmm
          have henv : envs = env :: envs' := (Option.some_inj.mp hmm).symm
          rw [oktetoGetAllGo]
          rw [if_neg (by simpa [List.isEmpty_iff] using hne)]
          rw [hmk, ih envs' hne hmm', henv]
          rfl

/-- Witness for C9 (amended) on the concrete listing of the counterexample:
the banner line is skipped and parsing continues from the detected header. -/
theorem C9_table_parsing_witness :
    oktetoGetAllGo none (["Status OK"] ++ "Name Scope Sleeping" :: ["env1 personal true"]) =
      oktetoGetAllGo
        (some ((splitTokens "Name Scope Sleeping").map strToLower))
        ["env1 personal true"] :=
  (C9_table_parsing ["Status OK"] "Name Scope Sleeping" ["env1 personal true"]
    (by decide) (by decide) (by decide)).1

/-! ## C10: the environment delete operation -/

/-- Catalog shape after the Okteto deletion loop: no record is ever removed
or renamed; only `sleeping` can change, only to `true`, and only for a
queued environment whose destroy command exited cleanly in a non-dry run. -/
theorem deleteOktetoPhase_catalog (dry : Bool) (exit : Nat → Nat)
    (cat : List OktetoDeployment) (plan : List Nat) :
    (deleteOktetoPhase dry exit cat plan).2.1.length = cat.length ∧
    ∀ j e', (deleteOktetoPhase dry exit cat plan).2.1.get? j = some e' →
      ∃ e, cat.get? j = some e ∧ e'.name = e.name ∧ e'.scope = e.scope ∧
        e'.github = e.github ∧
        (e'.sleeping = e.sleeping ∨
          (e'.sleeping = true ∧ exit j = 0 ∧ dry = false ∧ j ∈ plan)) := by
  induction plan generalizing cat with
  | nil => exact ⟨rfl, fun j e' he' => ⟨e', he', rfl, rfl, rfl, Or.inl rfl⟩⟩
  | cons j0 rest ih =>
    rcases hj0 : cat.get? j0 with _ | e0
    · have hstep : deleteOktetoPhase dry exit cat (j0 :: rest) =
          deleteOktetoPhase dry exit cat rest := by
        rw [deleteOktetoPhase, hj0]
      rw [hstep]
      obtain ⟨hlen, hpt⟩ := ih cat
      refine ⟨hlen, fun j e' he' => ?_⟩
      obtain ⟨e, he, h1, h2, h3, h4⟩ := hpt j e' he'
      refine ⟨e, he, h1, h2, h3, ?_⟩
      rcases h4 with h4 | ⟨h4, h5, h6, h7⟩
      · exact Or.inl h4
      · exact Or.inr ⟨h4, h5, h6, List.mem_cons_of_mem j0 h7⟩
    · cases dry with
      | true =>
        have hstep : (deleteOktetoPhase true exit cat (j0 :: rest)).2.1 =
            (deleteOktetoPhase true exit cat rest).2.1 := by
          rw [deleteOktetoPhase, hj0]
          rfl
        rw [hstep]
        obtain ⟨hlen, hpt⟩ := ih cat
        refine ⟨hlen, fun j e' he' => ?_⟩
        obtain ⟨e, he, h1, h2, h3, h4⟩ := hpt j e' he'
        refine ⟨e, he, h1, h2, h3, ?_⟩
        rcases h4 with h4 | ⟨h4, h5, h6, h7⟩
        · exact Or.inl h4
        · cases h6
      | false =>
        by_cases hx : exit j0 = 0
        · have hstep : (deleteOktetoPhase false exit cat (j0 :: rest)).2.1 =
              (deleteOktetoPhase false exit
                (modifyIdx (fun e => { e with sleeping := true }) cat j0) rest).2.1 := by
            rw [deleteOktetoPhase, hj0]
            simp [hx]
          rw [hstep]
          obtain ⟨hlen, hpt⟩ := ih (modifyIdx (fun e => { e with sleeping := true }) cat j0)
          refine ⟨by rw [hlen, modifyIdx_length], fun j e' he' => ?_⟩
          obtain ⟨em, hem, h1, h2, h3, h4⟩ := hpt j e' he'
          by_cases hjj : j = j0
          · subst hjj
            rw [get?_modifyIdx_self, hj0] at hem
            have hm : em = { e0 with sleeping := true } := (Option.some_inj.mp hem).symm
            refine ⟨e0, hj0, by rw [h1, hm], by rw [h2, hm], by rw [h3, hm], ?_⟩
            refine Or.inr ⟨?_, hx, rfl, List.mem_cons_self _ rest⟩
            rcases h4 with h4 | ⟨h4, -, -, -⟩
            · rw [h4, hm]
            · exact h4
          · rw [get?_modifyIdx_ne _ _ _ _ hjj] at hem
            refine ⟨em, hem, h1, h2, h3, ?_⟩
            rcases h4 with h4 | ⟨h4, h5, h6, h7⟩
            · exact Or.inl h4
            · exact Or.inr ⟨h4, h5, rfl, List.mem_cons_of_mem j0 h7⟩
        · have hstep : (deleteOktetoPhase false exit cat (j0 :: rest)).2.1 = cat := by
            rw [deleteOktetoPhase, hj0]
            simp [hx]
          rw [hstep]
          exact ⟨rfl, fun j e' he' => ⟨e', he', rfl, rfl, rfl, Or.inl rfl⟩⟩

/-- C10: `OktetoDeployment.delete` sets the record's sleeping flag only
after the destroy command exits cleanly; a non-zero exit raises instead and
the record is untouched; and across the whole deletion loop no record is
ever removed from the in-memory catalog — every index keeps a record with
the same name, scope and back-link, and `sleeping` changes (to `true`) only
for a queued record whose own destroy call succeeded in a live run. -/
theorem C10_environment_delete_atomic :
    (∀ (e : OktetoDeployment) (exitCode : Nat), exitCode = 0 →
      okteto_delete exitCode e = .ok { e with sleeping := true }) ∧
    (∀ (e : OktetoDeployment) (exitCode : Nat), exitCode ≠ 0 →
      okteto_delete exitCode e = .error ()) ∧
    (∀ (dry : Bool) (exit : Nat → Nat) (cat : List OktetoDeployment) (plan : List Nat),
      (deleteOktetoPhase dry exit cat plan).2.1.length = cat.length ∧
      ∀ j e', (deleteOktetoPhase dry exit cat plan).2.1.get? j = some e' →
        ∃ e, cat.get? j = some e ∧ e'.name = e.name ∧ e'.scope = e.scope ∧
          e'.github = e.github ∧
          (e'.sleeping = e.sleeping ∨
            (e'.sleeping = true ∧ exit j = 0 ∧ dry = false ∧ j ∈ plan))) :=
  ⟨fun e exitCode h => by rw [okteto_delete, if_pos h],
   fun e exitCode h => by rw [okteto_delete, if_neg h],
   fun dry exit cat plan => deleteOktetoPhase_catalog dry exit cat plan⟩

/-- Witness for C10: a destroy command exiting with code 1 raises and the
record at index 0 of a one-element catalog is returned unchanged. -/
theorem C10_environment_delete_atomic_witness :
    okteto_delete 1 ⟨"preview-a", "personal", false, none⟩ = .error () ∧
    (deleteOktetoPhase false (fun _ => 1)
        [⟨"preview-a", "personal", false, none⟩] [0]).2.1.length =
      ([⟨"preview-a", "personal", false, none⟩] : List OktetoDeployment).length :=
  ⟨C10_environment_delete_atomic.2.1 ⟨"preview-a", "personal", false, none⟩ 1 (by decide),
   (C10_environment_delete_atomic.2.2 false (fun _ => 1)
      [⟨"preview-a", "personal", false, none⟩] [0]).1⟩

end OktetoSync
